import Mathlib

/-!
Verification of the conversation-orchestration core of the `slop` repository.

The definitions below are shallow embeddings of the Go source:
* `CLIStreamHandler`, `writeIndent`, `formatJSONChar`, `formatJSON`,
  `CLIStreamHandler.Reset` embed the CLI stream handler and its stateful
  JSON-to-YAML formatter (`internal/ui/cli/msg` send command file);
  Go strings are modelled as `List Char` (the formatter ranges over runes,
  and every input considered here is ASCII, so runes and bytes coincide).
* `streamCallbackStep` / `processChunks` embed the `streamCallback` closure
  of `MessageService.SendMessage`; the `encoding/json` unmarshal of a chunk
  is an external standard-library routine, so it is passed in as an abstract
  total function `p : String → Option (List FCallItem)` (`none` models a
  returned error, `some l` models success with the decoded slice `l`).
* `Store`, `getThreadByID`, `getMessages`, `sendMessage`, `getThreadDetails`
  embed `MessageService` (`internal/message/messageService.go`) together with
  a model of the repository capability; the repository implementation is not
  part of the sources, so its contract is modelled from the spec.
-/

/-- State of the CLI streaming formatter, embedding the Go struct
`CLIStreamHandler` (the `originalCallback` field carries no state and is
omitted; `indentLevel` is a Go `int`, modelled as `Int` since `]`/`}` may
drive it below zero). Zero values give the freshly constructed handler. -/
structure CLIStreamHandler where
  inQuote : Bool
  escaped : Bool
  indentLevel : Int
  inArray : Bool
  isValue : Bool
deriving DecidableEq

/-- The freshly constructed handler: Go zero values for every field. -/
def initialHandler : CLIStreamHandler :=
  { inQuote := false, escaped := false, indentLevel := 0, inArray := false, isValue := false }

/-- Embeds the `writeIndent` closure of `formatJSON`: two spaces per indent
level; a non-positive level writes nothing (the Go `for` loop body never
runs). -/
def writeIndent (h : CLIStreamHandler) : List Char :=
  (List.replicate h.indentLevel.toNat [' ', ' ']).flatten

/-- One iteration of the `for _, char := range data` loop of
`CLIStreamHandler.formatJSON`, translated case by case in the Go `switch`
order; returns the updated handler state and the characters written. -/
def formatJSONChar (h : CLIStreamHandler) (c : Char) : CLIStreamHandler × List Char :=
  if h.escaped then
    ({ h with escaped := false }, [c])
  else if c == '\\' then
    ({ h with escaped := true }, [c])
  else if c == '"' then
    (if !h.inQuote then { h with inQuote := true } else { h with inQuote := false }, [])
  else if c == '[' && !h.inQuote then
    let h' := { h with inArray := true, indentLevel := h.indentLevel + 1 }
    (h', '\n' :: (writeIndent h' ++ ['-', ' ']))
  else if c == ']' && !h.inQuote then
    ({ h with indentLevel := h.indentLevel - 1, inArray := false }, [])
  else if c == '{' && !h.inQuote then
    let pre := if h.inArray then writeIndent h else []
    let h' := { h with indentLevel := h.indentLevel + 1 }
    (h', pre ++ '\n' :: writeIndent h')
  else if c == '}' && !h.inQuote then
    ({ h with indentLevel := h.indentLevel - 1, isValue := false }, [])
  else if c == ',' && !h.inQuote then
    ({ h with isValue := false },
      '\n' :: (writeIndent h ++ if h.inArray then ['-', ' '] else []))
  else if c == ':' && !h.inQuote then
    ({ h with isValue := true }, [':', ' '])
  else if c == ' ' && !h.inQuote then
    (h, if h.isValue then [' '] else [])
  else
    if h.inArray && !h.isValue && !h.inQuote then
      ({ h with isValue := true }, '-' :: ' ' :: [c])
    else
      (h, [c])

/-- Embeds `CLIStreamHandler.formatJSON`: runs the per-character loop over
the whole input, returning the final handler state and everything written
to the string builder. -/
def formatJSON : CLIStreamHandler → List Char → CLIStreamHandler × List Char
  | h, [] => (h, [])
  | h, c :: cs =>
    let s := formatJSONChar h c
    let r := formatJSON s.1 cs
    (r.1, s.2 ++ r.2)

/-- Embeds `CLIStreamHandler.Reset`: only the quote and escape flags are
assigned. -/
def CLIStreamHandler.Reset (h : CLIStreamHandler) : CLIStreamHandler :=
  { h with inQuote := false, escaped := false }

/-- Feeding a list of slices one at a time through `formatJSON` on a single
handler, concatenating what each call writes. -/
def feedAll : CLIStreamHandler → List (List Char) → CLIStreamHandler × List Char
  | h, [] => (h, [])
  | h, p :: ps =>
    let r := formatJSON h p
    let r2 := feedAll r.1 ps
    (r2.1, r.2 ++ r2.2)

/-- The JSON fragment from the round-trip property, as a character list:
the provider tool-call chunk
`[{"id":"1","function":{"name":"essay","arguments":"{\"name\":\"x\",\"content\":\"a,b\"}"}}]`. -/
def toolArgsFragment : List Char :=
  ("[\x7b\"id\":\"1\",\"function\":\x7b\"name\":\"essay\"," ++
   "\"arguments\":\"\x7b\\\"name\\\":\\\"x\\\",\\\"content\\\":\\\"a,b\\\"\x7d\"\x7d\x7d]").data

/-- Embeds `message.FunctionCallChunk` as used by the stream callback:
the decoded `function` object of a tool-call chunk. -/
structure FunctionCallChunk where
  name : String
  argumentsJson : String
deriving DecidableEq

/-- One element of the anonymous slice the callback tries to decode a chunk
into: `struct { Function FunctionCallChunk; Id *string }`. -/
structure FCallItem where
  function : FunctionCallChunk
  id : Option String
deriving DecidableEq

/-- Events delivered to the `StreamHandler` by the callback. -/
inductive StreamEvent where
  | functionCallStart (id name : String)
  | functionCallChunk (c : FunctionCallChunk)
  | textChunk (chunk : String)
deriving DecidableEq

/-- Embeds one invocation of the `streamCallback` closure in
`MessageService.SendMessage`. `p` stands for the `encoding/json` unmarshal
of the chunk into the tool-call slice (`none` for a decode error), `cur` for
the captured `currentFunctionId` (initially the Go zero value `""`).
Returns the updated `currentFunctionId` and the handler events fired. -/
def streamCallbackStep (p : String → Option (List FCallItem)) (cur : String)
    (chunk : String) : String × List StreamEvent :=
  match p chunk with
  | some (f :: _) =>
    match f.id with
    | some fid =>
      if cur ≠ fid then
        (fid, [StreamEvent.functionCallStart fid f.function.name,
               StreamEvent.functionCallChunk f.function])
      else
        (cur, [StreamEvent.functionCallChunk f.function])
    | none => (cur, [StreamEvent.functionCallChunk f.function])
  | _ => (cur, [StreamEvent.textChunk chunk])

/-- Runs the callback over a whole sequence of streamed chunks, threading
`currentFunctionId` and collecting the events in order. -/
def processChunks (p : String → Option (List FCallItem)) :
    String → List String → String × List StreamEvent
  | cur, [] => (cur, [])
  | cur, ch :: rest =>
    let r := streamCallbackStep p cur ch
    let r2 := processChunks p r.1 rest
    (r2.1, r.2 ++ r2.2)

/-- The ids of the function-call start events in a list of events. -/
def startIds (evs : List StreamEvent) : List String :=
  evs.filterMap fun e =>
    match e with
    | StreamEvent.functionCallStart i _ => some i
    | _ => none

/-- How many start events fire for a given call id. -/
def startCount (i : String) (evs : List StreamEvent) : Nat :=
  (startIds evs).count i

/-- A concrete decoder used to exercise the callback: two recognised
tool-call chunks carrying ids `A` and `B`, everything else a decode error. -/
def decodeCE : String → Option (List FCallItem) := fun s =>
  if s = "chunkA" then some [⟨⟨"essay", "argA"⟩, some "A"⟩]
  else if s = "chunkB" then some [⟨⟨"search", "argB"⟩, some "B"⟩]
  else none

/-- Start ids produced by the callback as a function of the per-chunk ids
alone: `none` fires nothing, `some x` fires a start exactly when `x` differs
from the tracked current id, which it then replaces. -/
def idStarts : String → List (Option String) → List String
  | _, [] => []
  | cur, none :: rest => idStarts cur rest
  | cur, some x :: rest => if cur ≠ x then x :: idStarts x rest else idStarts cur rest

/-- Message role, embedding `domain.RoleHuman` / `domain.RoleAssistant`. -/
inductive Role where
  | human
  | assistant
deriving DecidableEq

/-- Embeds `domain.Message` with the fields the service reads and writes
(uuid ids are modelled as naturals, string contents as `List Char` since Go
indexes strings by byte; the creation timestamp is not modelled — creation
order is carried by the position in the store). Zero values for unassigned
fields mirror Go struct literals. -/
structure Message where
  id : Nat
  threadID : Nat
  parentID : Option Nat
  role : Role
  content : List Char
  toolCalls : String
  modelName : String
  provider : String
deriving DecidableEq

/-- Embeds `domain.Thread`: identity and optional free-text summary. -/
structure Thread where
  id : Nat
  summary : List Char
deriving DecidableEq

/-- Model of the persistent store behind `repository.MessageRepository`:
threads, plus all messages in creation order, plus the id the next
persisted message receives. -/
structure Store where
  threads : List Thread
  messages : List Message
  nextID : Nat
deriving DecidableEq

/-- Modelled from the spec: the repository `getThread(id)` capability (the
repository implementation is not among the sources); returns the thread
with the given id, or nothing (`NotFound`). -/
def getThreadByID (st : Store) (tid : Nat) : Option Thread :=
  st.threads.find? fun t => t.id == tid

/-- Looks a message up by id in the store. -/
def msgByID (st : Store) (mid : Nat) : Option Message :=
  st.messages.find? fun m => m.id == mid

/-- Ancestor chain of a message, oldest first, with fuel bounding parent
traversal. -/
def chainToRoot (st : Store) : Nat → Nat → List Message
  | 0, _ => []
  | fuel + 1, mid =>
    match msgByID st mid with
    | none => []
    | some m =>
      match m.parentID with
      | none => [m]
      | some q => chainToRoot st fuel q ++ [m]

/-- Modelled from the spec: the repository
`getMessages(threadID, untilMessageID?, includeDescendants=false)`
capability. With no reference message it returns the thread's messages in
creation order (so the last element is the most recently created one); with
a reference message it returns the linear ancestor chain ending there,
oldest first. -/
def getMessages (st : Store) (tid : Nat) (refMsg : Option Nat) : List Message :=
  match refMsg with
  | none => st.messages.filter fun m => m.threadID == tid
  | some mid => chainToRoot st st.messages.length mid

/-- The model/provider configuration carried by the service, embedding what
`MessageService.SendMessage` reads off `s.llm.GetConfig()`. -/
structure MessageService where
  modelName : String
  provider : String
deriving DecidableEq

/-- The provider's non-streaming view of a turn, embedding
`llm.MessageResponse`. -/
structure ToolCall where
  id : String
  name : String
  arguments : String
deriving DecidableEq

/-- Embeds `llm.MessageResponse`: aggregated text plus tool-call records. -/
structure MessageResponse where
  textResponse : List Char
  toolCalls : List ToolCall
deriving DecidableEq

/-- Models `json.Marshal` of the `[]llm.ToolCall` slice for ASCII-clean
values (the exact rendering is irrelevant to the claims; only which message
the serialized string is attached to matters). -/
def marshalToolCall (t : ToolCall) : String :=
  "\x7b\"id\":\"" ++ t.id ++ "\",\"name\":\"" ++ t.name ++ "\",\"arguments\":" ++
    t.arguments ++ "\x7d"

/-- Models `json.Marshal` of the whole slice. -/
def marshalToolCalls (tcs : List ToolCall) : String :=
  "[" ++ String.intercalate "," (tcs.map marshalToolCall) ++ "]"

/-- Embeds `message.SendMessageOptions` (the stream handler and tool map do
not affect persistence and are modelled separately / omitted). -/
structure SendMessageOptions where
  threadID : Nat
  parentID : Option Nat
  content : List Char
deriving DecidableEq

/-- Errors surfaced by `SendMessage`, by failing step. -/
inductive SendError where
  | getThreadFailed
  | llmFailed
deriving DecidableEq

/-- Repository and provider calls `SendMessage` makes, in dispatch order. -/
inductive RepoOp where
  | getThreadOp (tid : Nat)
  | getMessagesOp (tid : Nat) (refMsg : Option Nat)
  | llmSendOp
  | addMessageOp (tid : Nat) (m : Message)
deriving DecidableEq

def RepoOp.isAdd : RepoOp → Bool
  | .addMessageOp _ _ => true
  | _ => false

def RepoOp.isLLMSend : RepoOp → Bool
  | .llmSendOp => true
  | _ => false

/-- Result of one `SendMessage` call: the store afterwards, the ordered
trace of external calls dispatched, and the returned value. -/
structure SendOutcome where
  store : Store
  trace : List RepoOp
  result : Except SendError Message

/-- Embeds the parent-defaulting step of `MessageService.SendMessage`
(lines 49–59): a nil parent is replaced by the id of the last message
`GetMessages` returns, when there is one. Returns the resolved parent and
the repository calls made. -/
def resolveParent (st : Store) (tid : Nat) (p : Option Nat) : Option Nat × List RepoOp :=
  match p with
  | some q => (some q, [])
  | none =>
    ((getMessages st tid none).getLast?.map fun m => m.id, [RepoOp.getMessagesOp tid none])

/-- Embeds `MessageService.SendMessage` (messageService.go lines 42–137).
`pr` is the outcome of the `s.llm.SendMessage` call (`Except.error` models
a provider failure, including a cancelled context surfacing as an error).
The user message is built before the provider call but — as in the source —
both `AddMessageToThread` calls happen only after the provider call
returns successfully; the assistant message's parent is the user message's
repository-assigned id (the Go code stores a pointer to that field). -/
def sendMessage (svc : MessageService) (st : Store) (pr : Except Unit MessageResponse)
    (opts : SendMessageOptions) : SendOutcome :=
  match getThreadByID st opts.threadID with
  | none => ⟨st, [RepoOp.getThreadOp opts.threadID], Except.error SendError.getThreadFailed⟩
  | some thread =>
    let rp := resolveParent st thread.id opts.parentID
    let userMsg : Message :=
      ⟨0, opts.threadID, rp.1, Role.human, opts.content, "", "", ""⟩
    let preTrace :=
      RepoOp.getThreadOp opts.threadID ::
        (rp.2 ++ [RepoOp.getMessagesOp thread.id rp.1, RepoOp.llmSendOp])
    match pr with
    | Except.error _ => ⟨st, preTrace, Except.error SendError.llmFailed⟩
    | Except.ok resp =>
      let hu : Message := { userMsg with id := st.nextID }
      let st1 : Store := ⟨st.threads, st.messages ++ [hu], st.nextID + 1⟩
      let ai : Message :=
        ⟨st1.nextID, opts.threadID, some hu.id, Role.assistant, resp.textResponse,
          marshalToolCalls resp.toolCalls, svc.modelName, svc.provider⟩
      let st2 : Store := ⟨st1.threads, st1.messages ++ [ai], st1.nextID + 1⟩
      ⟨st2,
        preTrace ++ [RepoOp.addMessageOp opts.threadID hu, RepoOp.addMessageOp opts.threadID ai],
        Except.ok ai⟩

instance : DecidableEq (Except SendError Message) := fun a b =>
  match a, b with
  | Except.error x, Except.error y =>
    if h : x = y then isTrue (by rw [h]) else isFalse (by simp [h])
  | Except.error _, Except.ok _ => isFalse (by simp)
  | Except.ok _, Except.error _ => isFalse (by simp)
  | Except.ok x, Except.ok y =>
    if h : x = y then isTrue (by rw [h]) else isFalse (by simp [h])

/-- An add of a message with the human role. -/
def RepoOp.isHumanAdd : RepoOp → Bool
  | .addMessageOp _ m => m.role == Role.human
  | _ => false

/-- Formalizes "the human message is durably stored at the moment the
provider is invoked" over a call trace: either no provider call happens, or
some human-message append precedes the first provider dispatch. -/
def humanStoredBeforeProviderCall (tr : List RepoOp) : Bool :=
  ((tr.takeWhile fun o => !o.isLLMSend).any RepoOp.isHumanAdd) || !(tr.any RepoOp.isLLMSend)

/-- The human message `SendMessage` builds and (on success) persists:
repository-assigned id, resolved parent, human role, the caller's content,
and Go zero values elsewhere. -/
def huOf (st : Store) (opts : SendMessageOptions) : Message :=
  ⟨st.nextID, opts.threadID, (resolveParent st opts.threadID opts.parentID).1,
    Role.human, opts.content, "", "", ""⟩

/-- The assistant message persisted on success. -/
def aiOf (svc : MessageService) (st : Store) (resp : MessageResponse)
    (opts : SendMessageOptions) : Message :=
  ⟨st.nextID + 1, opts.threadID, some st.nextID, Role.assistant, resp.textResponse,
    marshalToolCalls resp.toolCalls, svc.modelName, svc.provider⟩

/-- A service and a store with one empty thread, used as concrete fixtures. -/
def svc0 : MessageService := ⟨"claude-3-5-haiku-latest", "anthropic"⟩

def st0 : Store := ⟨[⟨1, []⟩], [], 0⟩

def opts0 : SendMessageOptions := ⟨1, none, ['h', 'i']⟩

def resp0 : MessageResponse := ⟨['o', 'k'], []⟩

/-- A fixture with one thread already holding a message with id 5, to
exercise the implicit-parent default. -/
def st5 : Store := ⟨[⟨1, []⟩], [⟨5, 1, none, Role.human, ['a'], "", "", ""⟩], 6⟩

/-- Embeds `message.ThreadDetails` (the creation timestamp is not
modelled). -/
structure ThreadDetails where
  id : Nat
  messageCount : Nat
  preview : List Char
deriving DecidableEq

/-- Embeds `MessageService.GetThreadDetails` (messageService.go lines
174–201): preview is the thread summary when non-empty, otherwise the
content of the first human message; previews longer than 50 bytes are cut
to their first 47 bytes plus `...`. -/
def getThreadDetails (st : Store) (t : Thread) : ThreadDetails :=
  let messages := getMessages st t.id none
  let preview0 :=
    if t.summary ≠ [] then t.summary
    else
      match messages.find? (fun m => m.role == Role.human) with
      | some m => m.content
      | none => []
  let preview :=
    if preview0.length > 50 then preview0.take 47 ++ ['.', '.', '.'] else preview0
  ⟨t.id, messages.length, preview⟩

theorem formatJSON_append (a b : List Char) (h : CLIStreamHandler) :
    formatJSON h (a ++ b) =
      ((formatJSON (formatJSON h a).1 b).1,
        (formatJSON h a).2 ++ (formatJSON (formatJSON h a).1 b).2) := by
  induction a generalizing h with
  | nil => simp [formatJSON]
  | cons c cs ih =>
    simp only [List.cons_append, formatJSON, List.append_eq]
    rw [ih]
    simp [List.append_assoc]

theorem feedAll_join (ps : List (List Char)) (h : CLIStreamHandler) :
    feedAll h ps = formatJSON h ps.flatten := by
  induction ps generalizing h with
  | nil => simp [feedAll, formatJSON]
  | cons p ps ih =>
    simp only [feedAll]
    rw [ih, List.flatten_cons, formatJSON_append]

/-- Claim C3: feeding the tool-call JSON fragment through the stateful
formatter in any sequence of consecutive slices produces, after
concatenation, the same rendered output as feeding it as one chunk. -/
theorem c3_chunk_invariance (parts : List (List Char)) (h : CLIStreamHandler)
    (hjoin : parts.flatten = toolArgsFragment) :
    (feedAll h parts).2 = (formatJSON h toolArgsFragment).2 := by
  rw [feedAll_join, hjoin]

/-- Witness for C3: splitting the fragment after its tenth character gives
the same rendered output as the single-chunk run. -/
theorem c3_chunk_invariance_witness :
    (feedAll initialHandler [toolArgsFragment.take 10, toolArgsFragment.drop 10]).2 =
      (formatJSON initialHandler toolArgsFragment).2 :=
  c3_chunk_invariance [toolArgsFragment.take 10, toolArgsFragment.drop 10] initialHandler
    (by simp)

theorem formatJSON_escquote_block (h1 : CLIStreamHandler) (rest : List Char)
    (hq : h1.inQuote = true) (he : h1.escaped = false) :
    formatJSON h1 ('\\' :: '"' :: rest) =
      ((formatJSON h1 rest).1, '\\' :: '"' :: (formatJSON h1 rest).2) := by
  obtain ⟨iq, esc, il, ia, iv⟩ := h1
  simp only at hq he
  subst hq
  subst he
  have s1 : formatJSONChar ⟨true, false, il, ia, iv⟩ '\\' =
      (⟨true, true, il, ia, iv⟩, ['\\']) := rfl
  have s2 : formatJSONChar ⟨true, true, il, ia, iv⟩ '"' =
      (⟨true, false, il, ia, iv⟩, ['"']) := rfl
  simp only [formatJSON, s1, s2]
  simp

/-- Claim C5: a backslash-quote pair met while inside a quoted string value
is emitted literally, and the quoted-string state is not toggled: the rest
of the input is processed from the same state, still inside the string. -/
theorem c5_escaped_quote (h : CLIStreamHandler) (pre rest : List Char)
    (hq : (formatJSON h pre).1.inQuote = true)
    (he : (formatJSON h pre).1.escaped = false) :
    formatJSON h (pre ++ '\\' :: '"' :: rest) =
      ((formatJSON (formatJSON h pre).1 rest).1,
        (formatJSON h pre).2 ++ '\\' :: '"' :: (formatJSON (formatJSON h pre).1 rest).2)
    ∧ (formatJSON h (pre ++ ['\\', '"'])).1.inQuote = true := by
  constructor
  · rw [formatJSON_append, formatJSON_escquote_block _ _ hq he]
  · rw [formatJSON_append, formatJSON_escquote_block _ _ hq he]
    simpa [formatJSON] using hq

/-- Witness for C5: after the prefix `{"a":"x` the handler is inside a
quoted value; feeding backslash-quote leaves it inside the quote. -/
theorem c5_escaped_quote_witness :
    (formatJSON initialHandler
      (['{', '"', 'a', '"', ':', '"', 'x'] ++ ['\\', '"'])).1.inQuote = true :=
  (c5_escaped_quote initialHandler ['{', '"', 'a', '"', ':', '"', 'x'] ['y']
    (by decide) (by decide)).2

/-- Claim C9: `Reset` clears exactly the quoted-string and escape-pending
flags and leaves the indent depth, array context and expecting-value flag
unchanged, whatever the prior state. -/
theorem c9_reset_frame (h : CLIStreamHandler) :
    h.Reset.inQuote = false ∧ h.Reset.escaped = false ∧
    h.Reset.indentLevel = h.indentLevel ∧ h.Reset.inArray = h.inArray ∧
    h.Reset.isValue = h.isValue :=
  ⟨rfl, rfl, rfl, rfl, rfl⟩

/-- Claim C7: the classification probe is total; a chunk whose decode fails
or yields an empty slice is handed unchanged to the text handler, and only
a successful decode with at least one element is routed as a tool-call
fragment (no text event fires then, and the fragment event carries the
decoded function object). -/
theorem c7_classification (p : String → Option (List FCallItem)) (cur chunk : String) :
    ((p chunk = none ∨ p chunk = some []) →
      streamCallbackStep p cur chunk = (cur, [StreamEvent.textChunk chunk]))
    ∧ (∀ f fs, p chunk = some (f :: fs) →
        (∀ s, StreamEvent.textChunk s ∉ (streamCallbackStep p cur chunk).2)
        ∧ StreamEvent.functionCallChunk f.function ∈ (streamCallbackStep p cur chunk).2) := by
  constructor
  · intro hfail
    rcases hfail with hnone | hnil
    · simp [streamCallbackStep, hnone]
    · simp [streamCallbackStep, hnil]
  · intro f fs hok
    simp only [streamCallbackStep, hok]
    cases hid : f.id with
    | none => simp
    | some fid =>
      by_cases hc : cur ≠ fid
      · simp [hc]
      · simp [hc]

/-- Witness for C7: under a decoder that rejects everything, a chunk is
delivered unchanged as text. -/
theorem c7_classification_witness :
    streamCallbackStep (fun _ => none) "" "hello" = ("", [StreamEvent.textChunk "hello"]) :=
  (c7_classification (fun _ => none) "" "hello").1 (Or.inl rfl)

/-- Counterexample to C4: in the stream `A, B, A` every chunk classifies as
a tool-call fragment, yet the id `A` fires two start events, not one —
`currentFunctionId` only remembers the immediately preceding id. -/
theorem c4_start_once_counterexample :
    ¬ startCount "A" (processChunks decodeCE "" ["chunkA", "chunkB", "chunkA"]).2 = 1 := by
  decide

theorem startIds_append (a b : List StreamEvent) :
    startIds (a ++ b) = startIds a ++ startIds b := by
  simp [startIds, List.filterMap_append]

theorem startIds_processChunks (p : String → Option (List FCallItem))
    (chunks : List String) (items : List FCallItem)
    (hrel : List.Forall₂ (fun ch f => ∃ rest, p ch = some (f :: rest)) chunks items) :
    ∀ cur, startIds (processChunks p cur chunks).2 = idStarts cur (items.map fun f => f.id) := by
  induction hrel with
  | nil => intro cur; rfl
  | @cons ch f chs fs hcf htail ih =>
    intro cur
    obtain ⟨rest, hp⟩ := hcf
    simp only [processChunks]
    rw [startIds_append]
    simp only [streamCallbackStep, hp, List.map_cons]
    cases hid : f.id with
    | none =>
      simp only [idStarts]
      rw [← ih cur]
      simp [startIds]
    | some fid =>
      by_cases hc : cur ≠ fid
      · simp only [if_pos hc, idStarts]
        rw [← ih fid]
        simp [startIds, hc]
      · simp only [if_neg hc, idStarts]
        rw [← ih cur]
        simp [startIds, hc]

theorem idStarts_replicate (n : Nat) (hn : 0 < n) (x : String) (rest : List (Option String)) :
    ∀ cur, idStarts cur (List.replicate n (some x) ++ rest) =
      if cur ≠ x then x :: idStarts x rest else idStarts cur rest := by
  induction n with
  | zero => exact absurd hn (by omega)
  | succ m ih =>
    intro cur
    rcases Nat.eq_zero_or_pos m with hm0 | hmpos
    · subst hm0
      simp [idStarts, List.replicate_succ]
    · simp only [List.replicate_succ, List.cons_append, List.append_eq, idStarts]
      by_cases hc : cur ≠ x
      · simp only [if_pos hc, ih hmpos x]
        simp [hc]
      · simp only [if_neg hc]
        rw [ih hmpos cur, if_neg hc]

theorem idStarts_runs (runs : List (String × Nat)) :
    ∀ cur, (runs.map Prod.fst).Nodup →
      (∀ r ∈ runs, 0 < r.2) →
      cur ∉ runs.map Prod.fst →
      idStarts cur ((runs.map fun r => List.replicate r.2 (some r.1))).flatten =
        runs.map Prod.fst := by
  induction runs with
  | nil => intro cur _ _ _; rfl
  | cons r rs ih =>
    intro cur hnd hpos hmem
    simp only [List.map_cons, List.flatten_cons]
    rw [idStarts_replicate r.2 (hpos r (List.mem_cons_self r rs)) r.1]
    have hne : cur ≠ r.1 := by
      intro heq
      exact hmem (by simp [heq])
    rw [if_pos hne]
    congr 1
    exact ih r.1 (List.nodup_cons.mp hnd).2
      (fun q hq => hpos q (List.mem_cons_of_mem _ hq))
      (List.nodup_cons.mp hnd).1

/-- Claim C4 (amended): a start event fires for a tool-call chunk exactly
when its id is present and differs from the tracked current id (initially
the Go zero value `""`). Hence no start fires for a chunk whose id matches
the call already in progress, and when the chunks of each distinct id are
contiguous — each id forming one run, no id empty — each distinct id fires
exactly one start event; interleaved ids fire a start at every change. -/
theorem c4_start_events (p : String → Option (List FCallItem))
    (chunks : List String) (items : List FCallItem) (runs : List (String × Nat))
    (hrel : List.Forall₂ (fun ch f => ∃ rest, p ch = some (f :: rest)) chunks items)
    (hids : items.map (fun f => f.id) = ((runs.map fun r => List.replicate r.2 (some r.1))).flatten)
    (hnd : (runs.map Prod.fst).Nodup)
    (hpos : ∀ r ∈ runs, 0 < r.2)
    (hne : ∀ r ∈ runs, r.1 ≠ "") :
    startIds (processChunks p "" chunks).2 = runs.map Prod.fst
    ∧ (∀ x ∈ runs.map Prod.fst, startCount x (processChunks p "" chunks).2 = 1)
    ∧ (∀ cur chunk f fs, p chunk = some (f :: fs) → f.id = some cur →
        startIds (streamCallbackStep p cur chunk).2 = []) := by
  have hmain : startIds (processChunks p "" chunks).2 = runs.map Prod.fst := by
    rw [startIds_processChunks p chunks items hrel "", hids]
    apply idStarts_runs runs "" hnd hpos
    intro hmem
    obtain ⟨r, hr, hr2⟩ := List.mem_map.mp hmem
    exact hne r hr hr2
  refine ⟨hmain, ?_, ?_⟩
  · intro x hx
    rw [startCount, hmain]
    exact List.count_eq_one_of_mem hnd hx
  · intro cur chunk f fs hp hid
    simp [streamCallbackStep, hp, hid, startIds]

/-- Witness for C4 (amended): the contiguous stream `A, A, B` fires exactly
the starts `A` then `B`. -/
theorem c4_start_events_witness :
    startIds (processChunks decodeCE "" ["chunkA", "chunkA", "chunkB"]).2 = ["A", "B"] :=
  (c4_start_events decodeCE ["chunkA", "chunkA", "chunkB"]
    [⟨⟨"essay", "argA"⟩, some "A"⟩, ⟨⟨"essay", "argA"⟩, some "A"⟩,
      ⟨⟨"search", "argB"⟩, some "B"⟩]
    [("A", 2), ("B", 1)]
    (List.Forall₂.cons ⟨[], by decide⟩
      (List.Forall₂.cons ⟨[], by decide⟩
        (List.Forall₂.cons ⟨[], by decide⟩ List.Forall₂.nil)))
    (by decide) (by decide) (by decide) (by decide)).1

theorem getThreadByID_id (st : Store) (tid : Nat) (t : Thread)
    (h : getThreadByID st tid = some t) : t.id = tid := by
  have := List.find?_some h
  simpa using this

theorem sendMessage_ok (svc : MessageService) (st : Store) (resp : MessageResponse)
    (opts : SendMessageOptions) (thread : Thread)
    (hth : getThreadByID st opts.threadID = some thread) :
    sendMessage svc st (Except.ok resp) opts =
      ⟨⟨st.threads, st.messages ++ [huOf st opts, aiOf svc st resp opts], st.nextID + 2⟩,
        RepoOp.getThreadOp opts.threadID ::
          ((resolveParent st opts.threadID opts.parentID).2 ++
            [RepoOp.getMessagesOp opts.threadID (resolveParent st opts.threadID opts.parentID).1,
             RepoOp.llmSendOp]) ++
          [RepoOp.addMessageOp opts.threadID (huOf st opts),
           RepoOp.addMessageOp opts.threadID (aiOf svc st resp opts)],
        Except.ok (aiOf svc st resp opts)⟩ := by
  have hid : thread.id = opts.threadID := getThreadByID_id st opts.threadID thread hth
  have h2 : st.nextID + 1 + 1 = st.nextID + 2 := by omega
  simp only [sendMessage, hth, hid, huOf, aiOf]
  rw [List.append_assoc, h2]
  rfl

/-- Counterexample to C1: on a successful turn against an existing, empty
thread, the call trace dispatches the provider call before any append — no
human-message append precedes `llm.SendMessage`, so the human message is
not yet durably stored when the provider is invoked. -/
theorem c1_persist_order_counterexample :
    humanStoredBeforeProviderCall (sendMessage svc0 st0 (Except.ok resp0) opts0).trace =
      false := by
  decide

/-- Claim C1 (amended): in every `SendMessage` call the human message is
appended only after the provider call — the trace contains no append before
the `llm.SendMessage` dispatch — and on success the appends after it are
exactly the human message (with the caller's content and the resolved
parent) followed by the assistant message. -/
theorem c1_persist_order (svc : MessageService) (st : Store)
    (pr : Except Unit MessageResponse) (opts : SendMessageOptions) (ai : Message)
    (h : (sendMessage svc st pr opts).result = Except.ok ai) :
    (((sendMessage svc st pr opts).trace.takeWhile fun o => !o.isLLMSend).all
        fun o => !o.isAdd) = true
    ∧ (sendMessage svc st pr opts).trace.filter RepoOp.isAdd =
        [RepoOp.addMessageOp opts.threadID (huOf st opts),
         RepoOp.addMessageOp opts.threadID ai] := by
  rcases hth : getThreadByID st opts.threadID with _ | thread
  · rw [sendMessage, hth] at h
    simp at h
  · rcases pr with e | resp
    · rw [sendMessage, hth] at h
      simp at h
    · rw [sendMessage_ok svc st resp opts thread hth] at h ⊢
      simp only [Except.ok.injEq] at h
      subst h
      rcases hp : opts.parentID with _ | q
      · simp [resolveParent, hp, List.takeWhile, List.filter, List.all,
          RepoOp.isAdd, RepoOp.isLLMSend]
      · simp [resolveParent, hp, List.takeWhile, List.filter, List.all,
          RepoOp.isAdd, RepoOp.isLLMSend]

/-- Witness for C1 (amended): on the concrete successful run, no append
precedes the provider dispatch. -/
theorem c1_persist_order_witness :
    (((sendMessage svc0 st0 (Except.ok resp0) opts0).trace.takeWhile
        fun o => !o.isLLMSend).all fun o => !o.isAdd) = true :=
  (c1_persist_order svc0 st0 (Except.ok resp0) opts0
    ⟨1, 1, some 0, Role.assistant, ['o', 'k'], "[]",
      "claude-3-5-haiku-latest", "anthropic"⟩ (by decide)).1

/-- Counterexample to C2: when the provider call fails (here, the turn is
cancelled and the error surfaces from `llm.SendMessage`), the human message
of the turn is not in the store afterwards at all — it does not "remain
stored", because it was never persisted. -/
theorem c2_cancel_keeps_human_counterexample :
    ((sendMessage svc0 st0 (Except.error ()) opts0).store.messages.any
      fun m => m.role == Role.human) = false := by
  decide

/-- Claim C2 (amended): if the provider call fails or is cancelled,
`SendMessage` persists nothing at all: the store is unchanged and the trace
contains no append — neither an assistant message nor the turn's human
message is stored. -/
theorem c2_nothing_persisted_on_failure (svc : MessageService) (st : Store)
    (opts : SendMessageOptions) (e : Unit) :
    (sendMessage svc st (Except.error e) opts).store = st
    ∧ ((sendMessage svc st (Except.error e) opts).trace.all fun o => !o.isAdd) = true := by
  rcases hth : getThreadByID st opts.threadID with _ | thread
  · rw [sendMessage, hth]
    exact ⟨rfl, by simp [List.all, RepoOp.isAdd]⟩
  · rw [sendMessage, hth]
    refine ⟨rfl, ?_⟩
    rcases hp : opts.parentID with _ | q
    · simp [resolveParent, hp, List.all, RepoOp.isAdd]
    · simp [resolveParent, hp, List.all, RepoOp.isAdd]

/-- Claim C6: the persisted human message's parent is the explicit
`ParentID` when one is given, and otherwise the id of the most recently
created message the repository returns for the thread (none on an empty
thread). -/
theorem c6_parent_assignment (svc : MessageService) (st : Store)
    (pr : Except Unit MessageResponse) (opts : SendMessageOptions) (ai : Message)
    (h : (sendMessage svc st pr opts).result = Except.ok ai) :
    (sendMessage svc st pr opts).store.messages =
      st.messages ++
        [{ id := st.nextID, threadID := opts.threadID,
           parentID :=
             match opts.parentID with
             | some p => some p
             | none => (getMessages st opts.threadID none).getLast?.map fun m => m.id,
           role := Role.human, content := opts.content, toolCalls := "",
           modelName := "", provider := "" }, ai] := by
  rcases hth : getThreadByID st opts.threadID with _ | thread
  · rw [sendMessage, hth] at h
    simp at h
  · rcases pr with e | resp
    · rw [sendMessage, hth] at h
      simp at h
    · rw [sendMessage_ok svc st resp opts thread hth] at h ⊢
      simp only [Except.ok.injEq] at h
      subst h
      rcases hp : opts.parentID with _ | q
      · simp [huOf, resolveParent, hp]
      · simp [huOf, resolveParent, hp]

/-- Witness for C6: with a nil parent on a thread whose latest message has
id 5, the persisted human message's parent is 5. -/
theorem c6_parent_assignment_witness :
    (sendMessage svc0 st5 (Except.ok resp0) opts0).store.messages =
      st5.messages ++
        [{ id := st5.nextID, threadID := opts0.threadID,
           parentID :=
             match opts0.parentID with
             | some p => some p
             | none => (getMessages st5 opts0.threadID none).getLast?.map fun m => m.id,
           role := Role.human, content := opts0.content, toolCalls := "",
           modelName := "", provider := "" },
         ⟨7, 1, some 6, Role.assistant, ['o', 'k'], "[]",
           "claude-3-5-haiku-latest", "anthropic"⟩] :=
  c6_parent_assignment svc0 st5 (Except.ok resp0) opts0
    ⟨7, 1, some 6, Role.assistant, ['o', 'k'], "[]",
      "claude-3-5-haiku-latest", "anthropic"⟩ (by decide)

/-- Claim C8: every message this call adds to the store with the human role
carries no tool calls (the Go zero value, the empty string); a newly added
assistant message is the only one carrying the serialized tool-call records
of the provider response. -/
theorem c8_human_no_toolcalls (svc : MessageService) (st : Store)
    (pr : Except Unit MessageResponse) (opts : SendMessageOptions) :
    ∀ m, m ∈ (sendMessage svc st pr opts).store.messages → m ∉ st.messages →
      (m.role = Role.human → m.toolCalls = "")
      ∧ (m.role = Role.assistant →
          ∃ resp, pr = Except.ok resp ∧ m.toolCalls = marshalToolCalls resp.toolCalls) := by
  intro m hm hnot
  rcases hth : getThreadByID st opts.threadID with _ | thread
  · rw [sendMessage, hth] at hm
    exact absurd hm hnot
  · rcases pr with e | resp
    · rw [sendMessage, hth] at hm
      exact absurd hm hnot
    · rw [sendMessage_ok svc st resp opts thread hth] at hm
      simp only [List.mem_append] at hm
      rcases hm with hm | hm
      · exact absurd hm hnot
      · simp only [List.mem_cons, List.mem_singleton] at hm
        rcases hm with rfl | hm
        · refine ⟨fun _ => rfl, fun hrole => ?_⟩
          simp [huOf] at hrole
        · rcases hm with rfl | hm
          · refine ⟨fun hrole => ?_, fun _ => ⟨resp, rfl, rfl⟩⟩
            simp [aiOf] at hrole
          · simp at hm

/-- Witness for C8: in the concrete successful run, the newly persisted
human message carries the empty tool-call string. -/
theorem c8_human_no_toolcalls_witness :
    (huOf st0 opts0).toolCalls = "" :=
  (c8_human_no_toolcalls svc0 st0 (Except.ok resp0) opts0 (huOf st0 opts0)
    (by decide) (by decide)).1 (by decide)

/-- Claim C10: the preview equals the summary when non-empty, else the
first human message's content (empty if none); when that base string is
longer than 50 bytes the preview is its first 47 bytes plus `...`, and the
returned preview never exceeds 50 bytes. -/
theorem c10_preview (st : Store) (t : Thread) :
    ((getThreadDetails st t).preview =
      (fun base => if base.length > 50 then base.take 47 ++ ['.', '.', '.'] else base)
        (if t.summary ≠ [] then t.summary
         else
           match (getMessages st t.id none).find? (fun m => m.role == Role.human) with
           | some m => m.content
           | none => []))
    ∧ (getThreadDetails st t).preview.length ≤ 50 := by
  have truncate_le : ∀ base : List Char,
      (if base.length > 50 then base.take 47 ++ ['.', '.', '.'] else base).length ≤ 50 := by
    intro base
    split
    · next hl =>
      have hmin : min 47 base.length = 47 := Nat.min_eq_left (by omega)
      simp only [List.length_append, List.length_take, hmin, List.length_cons,
        List.length_nil]
      omega
    · next hl => omega
  exact ⟨rfl, truncate_le _⟩
